import Mathlib

/-!
Verification of the validation-and-generation engine of the
"Generador SPOOL y CTL para Oracle" repository.

Strings are embedded as `List Char`. The frontend helpers
(`ensureTrailingSeparator`, `escapeHtml`, `getFilenameFromDisposition`,
the folder-picker modal) are translated from `app/static/app.js`; the
backend components (SQL statement validator, export-path sanitizer,
spool generator), whose Python sources are not part of the repository
snapshot, are modelled from the specification, as marked on each
definition.
-/

namespace SpoolGen

/-- Whitespace as JavaScript's `String.prototype.trim` treats it
(space, tab, line/form feeds, carriage return, NBSP, BOM). -/
def isWsChar (c : Char) : Bool :=
  c = ' ' || c = '\t' || c = '\n' || c = '\r' || c = '\x0b' ||
  c = '\x0c' || c = '\u00A0' || c = '\uFEFF'

/-- Drop leading whitespace. -/
def dropLead (l : List Char) : List Char := l.dropWhile isWsChar

/-- Drop trailing whitespace. -/
def dropTrail (l : List Char) : List Char := (dropLead l.reverse).reverse

/-- JavaScript `value.trim()`: strip whitespace from both ends. -/
def jsTrim (l : List Char) : List Char := dropLead (dropTrail l)

/-- JavaScript `value.includes(c)` for a single character. -/
def hasChar (l : List Char) (c : Char) : Bool := l.any (fun x => x = c)

/-- JavaScript `value.endsWith(c)` for a single character. -/
def endsWithChar (l : List Char) (c : Char) : Bool := l.getLast? = some c

/-- Translated from `app/static/app.js` lines 92-100: trim the value,
pick a separator (backslash when the value contains one or contains no
forward slash, else forward slash) and append it unless the trimmed
value already ends in a separator.  The empty string is returned
unchanged (JavaScript `!value`). -/
def ensureTrailingSeparator (value : List Char) : List Char :=
  if value = [] then value
  else
    let v := jsTrim value
    let hasBack := hasChar v '\\'
    let hasFwd := hasChar v '/' && !hasBack
    let sep : Char := if hasBack || !hasFwd then '\\' else '/'
    if endsWithChar v '\\' || endsWithChar v '/' then v
    else v ++ [sep]

theorem dropLead_head_not_ws {l rest : List Char} {c : Char}
    (h : dropLead l = c :: rest) : isWsChar c = false := by
  induction l with
  | nil => simp [dropLead] at h
  | cons a t ih =>
    by_cases hw : isWsChar a
    · exact ih (by simpa [dropLead, List.dropWhile, hw] using h)
    · simp only [dropLead, List.dropWhile, hw] at h
      cases h
      simpa using hw

theorem dropLead_of_head_not_ws {l : List Char} {c : Char}
    (h : isWsChar c = false) : dropLead (c :: l) = c :: l := by
  simp [dropLead, List.dropWhile, h]

theorem dropLead_suffix (l : List Char) : ∃ t, t ++ dropLead l = l := by
  induction l with
  | nil => exact ⟨[], rfl⟩
  | cons a t ih =>
    by_cases hw : isWsChar a
    · obtain ⟨u, hu⟩ := ih
      refine ⟨a :: u, ?_⟩
      have hstep : dropLead (a :: t) = dropLead t := by
        simp [dropLead, List.dropWhile, hw]
      rw [hstep]
      simpa using hu
    · exact ⟨[], by simp [dropLead_of_head_not_ws (by simpa using hw : isWsChar a = false)]⟩

theorem jsTrim_head_not_ws {l rest : List Char} {c : Char}
    (h : jsTrim l = c :: rest) : isWsChar c = false :=
  dropLead_head_not_ws h

theorem jsTrim_last_not_ws {l : List Char} {c : Char}
    (h : (jsTrim l).getLast? = some c) : isWsChar c = false := by
  unfold jsTrim at h
  obtain ⟨t, ht⟩ := dropLead_suffix (dropTrail l)
  have hne : dropLead (dropTrail l) ≠ [] := by
    intro he
    rw [he] at h
    simp at h
  have h2 : (dropTrail l).getLast? = some c := by
    rw [← ht, List.getLast?_append, h]
    rfl
  unfold dropTrail at h2
  rw [List.getLast?_reverse] at h2
  cases he : dropLead l.reverse with
  | nil => rw [he] at h2; simp at h2
  | cons a t' =>
    rw [he] at h2
    simp at h2
    rw [← h2]
    exact dropLead_head_not_ws he

theorem jsTrim_fix {l : List Char}
    (hh : ∀ c rest, l = c :: rest → isWsChar c = false)
    (hl : ∀ c, l.getLast? = some c → isWsChar c = false) :
    jsTrim l = l := by
  cases l with
  | nil => rfl
  | cons a t =>
    have hdt : dropTrail (a :: t) = a :: t := by
      unfold dropTrail
      have hrev : (a :: t).reverse ≠ [] := by simp
      cases he : (a :: t).reverse with
      | nil => exact absurd he hrev
      | cons b u =>
        have hb : (a :: t).getLast? = some b := by
          rw [← List.head?_reverse, he]; rfl
        rw [dropLead_of_head_not_ws (hl b hb), ← he, List.reverse_reverse]
    unfold jsTrim
    rw [hdt]
    exact dropLead_of_head_not_ws (hh a t rfl)

theorem bs_not_ws : isWsChar '\\' = false := by decide

theorem fwd_not_ws : isWsChar '/' = false := by decide

/-- Unfolded form of `ensureTrailingSeparator` on a non-empty input. -/
theorem ets_eq (p : List Char) (hp : p ≠ []) :
    ensureTrailingSeparator p =
      if endsWithChar (jsTrim p) '\\' || endsWithChar (jsTrim p) '/' then jsTrim p
      else jsTrim p ++
        [if hasChar (jsTrim p) '\\' || !(hasChar (jsTrim p) '/' && !hasChar (jsTrim p) '\\') then '\\' else '/'] := by
  unfold ensureTrailingSeparator
  rw [if_neg hp]

/-- The output of `ensureTrailingSeparator` on a non-empty input: it is
the trimmed value when that already ends in a separator, else the
trimmed value plus one separator character. -/
theorem ensureTrailingSeparator_out {p : List Char} (hp : p ≠ []) :
    (ensureTrailingSeparator p = jsTrim p ∧
      (endsWithChar (jsTrim p) '\\' || endsWithChar (jsTrim p) '/') = true) ∨
    (∃ sep, (sep = '\\' ∨ sep = '/') ∧
      ensureTrailingSeparator p = jsTrim p ++ [sep] ∧
      (endsWithChar (jsTrim p) '\\' || endsWithChar (jsTrim p) '/') = false) := by
  rw [ets_eq p hp]
  by_cases hend : (endsWithChar (jsTrim p) '\\' || endsWithChar (jsTrim p) '/') = true
  · left
    rw [if_pos hend]
    exact ⟨rfl, hend⟩
  · right
    have hend' : (endsWithChar (jsTrim p) '\\' || endsWithChar (jsTrim p) '/') = false := by
      simpa using hend
    refine ⟨if hasChar (jsTrim p) '\\' || !(hasChar (jsTrim p) '/' && !hasChar (jsTrim p) '\\') then '\\' else '/', ?_, ?_, hend'⟩
    · split
      · exact Or.inl rfl
      · exact Or.inr rfl
    · rw [if_neg hend]

/-- A value of the form `jsTrim p` is left unchanged by `jsTrim`. -/
theorem jsTrim_of_trim_append_sep (p : List Char) (sep : Char)
    (hsep : isWsChar sep = false) :
    jsTrim (jsTrim p ++ [sep]) = jsTrim p ++ [sep] := by
  apply jsTrim_fix
  · intro c rest h
    cases he : jsTrim p with
    | nil => rw [he] at h; simp at h; exact h.1 ▸ hsep
    | cons a t =>
      rw [he] at h
      simp at h
      rw [← h.1]
      exact jsTrim_head_not_ws he
  · intro c h
    rw [List.getLast?_concat] at h
    cases h
    exact hsep

theorem jsTrim_idem (p : List Char) :
    jsTrim (jsTrim p) = jsTrim p := by
  apply jsTrim_fix
  · intro c rest hc
    exact jsTrim_head_not_ws hc
  · intro c hc
    exact jsTrim_last_not_ws hc

theorem hasChar_iff {l : List Char} {c : Char} : hasChar l c = true ↔ c ∈ l := by
  unfold hasChar
  rw [List.any_eq_true]
  constructor
  · rintro ⟨x, hx, hxc⟩
    have hxc2 : x = c := by simpa using hxc
    exact hxc2 ▸ hx
  · intro h
    exact ⟨c, h, by simp⟩

theorem endsWithChar_ne_nil {l : List Char} {c : Char}
    (h : endsWithChar l c = true) : l ≠ [] := by
  intro he
  rw [he] at h
  simp [endsWithChar] at h

theorem sep_or_ne_nil {l : List Char}
    (h : (endsWithChar l '\\' || endsWithChar l '/') = true) : l ≠ [] := by
  rcases Bool.or_eq_true _ _ |>.mp h with h1 | h1
  · exact endsWithChar_ne_nil h1
  · exact endsWithChar_ne_nil h1

/-- `ensureTrailingSeparator` is idempotent: its output is a fixed point. -/
theorem ensureTrailingSeparator_idem (p : List Char) :
    ensureTrailingSeparator (ensureTrailingSeparator p) = ensureTrailingSeparator p := by
  by_cases hp : p = []
  · subst hp
    rfl
  · rcases ensureTrailingSeparator_out hp with ⟨heq, hend⟩ | ⟨sep, hsep, heq, hend⟩
    · rw [heq]
      have hne : jsTrim p ≠ [] := sep_or_ne_nil hend
      rw [ets_eq (jsTrim p) hne, jsTrim_idem, if_pos hend]
    · rw [heq]
      have hne : jsTrim p ++ [sep] ≠ [] := by simp
      have hsepws : isWsChar sep = false := by
        rcases hsep with h | h <;> subst h
        · exact bs_not_ws
        · exact fwd_not_ws
      have htr : jsTrim (jsTrim p ++ [sep]) = jsTrim p ++ [sep] :=
        jsTrim_of_trim_append_sep p sep hsepws
      have hlast : (jsTrim p ++ [sep]).getLast? = some sep := List.getLast?_concat _
      have hend2 : (endsWithChar (jsTrim p ++ [sep]) '\\' ||
          endsWithChar (jsTrim p ++ [sep]) '/') = true := by
        rcases hsep with h | h <;> subst h <;>
          simp [endsWithChar, hlast]
      rw [ets_eq _ hne, htr, if_pos hend2]

/-- On a non-empty input, the output of `ensureTrailingSeparator` ends
with a backslash or a forward slash. -/
theorem ensureTrailingSeparator_ends_sep {p : List Char} (hp : p ≠ []) :
    (endsWithChar (ensureTrailingSeparator p) '\\' ||
      endsWithChar (ensureTrailingSeparator p) '/') = true := by
  rcases ensureTrailingSeparator_out hp with ⟨heq, hend⟩ | ⟨sep, hsep, heq, hend⟩
  · rw [heq]
    exact hend
  · rw [heq]
    have hlast : (jsTrim p ++ [sep]).getLast? = some sep := List.getLast?_concat _
    rcases hsep with h | h <;> subst h <;> simp [endsWithChar, hlast]

/-- `ensureTrailingSeparator` introduces no separator-style mixing: when
its output contains both a forward slash and a backslash, the trimmed
input already contained both. -/
theorem ensureTrailingSeparator_mixed_only_if (p : List Char)
    (hf : '/' ∈ ensureTrailingSeparator p)
    (hb : '\\' ∈ ensureTrailingSeparator p) :
    '/' ∈ jsTrim p ∧ '\\' ∈ jsTrim p := by
  by_cases hp : p = []
  · subst hp
    simp [ensureTrailingSeparator] at hf
  · rw [ets_eq p hp] at hf hb
    by_cases hend : (endsWithChar (jsTrim p) '\\' || endsWithChar (jsTrim p) '/') = true
    · rw [if_pos hend] at hf hb
      exact ⟨hf, hb⟩
    · rw [if_neg hend] at hf hb
      by_cases hC : (hasChar (jsTrim p) '\\' || !(hasChar (jsTrim p) '/' && !hasChar (jsTrim p) '\\')) = true
      · rw [if_pos hC] at hf hb
        have hfv : '/' ∈ jsTrim p := by
          rcases List.mem_append.mp hf with h | h
          · exact h
          · simp at h
        have hfc : hasChar (jsTrim p) '/' = true := hasChar_iff.mpr hfv
        have hbv : hasChar (jsTrim p) '\\' = true := by
          rcases Bool.or_eq_true _ _ |>.mp hC with h | h
          · exact h
          · rw [hfc] at h
            simpa using h
        exact ⟨hfv, hasChar_iff.mp hbv⟩
      · rw [if_neg hC] at hf hb
        have hbv : '\\' ∈ jsTrim p := by
          rcases List.mem_append.mp hb with h | h
          · exact h
          · simp at h
        exfalso
        apply hC
        simp [hasChar_iff.mpr hbv]

/-- Verdict of the export-path sanitizer: an allowed path carries its
normalized form, a denial carries a reason. -/
inductive PathVerdict where
  | allowed (normalized : List Char)
  | denied (reason : String)
deriving DecidableEq

def PathVerdict.isDenied : PathVerdict → Bool
  | .allowed _ => false
  | .denied _ => true

/-- Modelled from the spec: the sanitizer's immutable configuration,
deny prefixes and optional allowed roots (the strict filesystem probe is
outside the shallow embedding). -/
structure PathConfig where
  denyList : List (List Char)
  allowedRoots : List (List Char)

/-- Modelled from the spec: canonical separator style is the backslash. -/
def toBackslash (c : Char) : Char := if c = '/' then '\\' else c

/-- Modelled from the spec: trim the raw path and normalize every
separator to the canonical backslash style. -/
def canonPath (l : List Char) : List Char := (jsTrim l).map toBackslash

/-- Split a canonical path on backslashes (keeping empty chunks). -/
def splitBS : List Char → List (List Char)
  | [] => [[]]
  | c :: rest =>
    if c = '\\' then [] :: splitBS rest
    else
      match splitBS rest with
      | [] => [[c]]
      | s :: ss => (c :: s) :: ss

/-- The non-empty path segments of a raw path, after canonicalization. -/
def pathSegs (l : List Char) : List (List Char) :=
  (splitBS (canonPath l)).filter (fun s => !s.isEmpty)

/-- Case-insensitive form of one segment. -/
def upSeg (s : List Char) : List Char := s.map Char.toUpper

/-- Segment-wise, case-insensitive prefix test between segment lists. -/
def segPrefixCI (a b : List (List Char)) : Bool :=
  (a.map upSeg).isPrefixOf (b.map upSeg)

/-- Whether the canonical path denotes a UNC share (leading double
backslash). -/
def isUNC (l : List Char) : Bool :=
  match canonPath l with
  | '\\' :: '\\' :: _ => true
  | _ => false

/-- An administrative-share segment list: host followed by a
single-letter share name ending in a dollar sign. -/
def isAdminShareSegs : List (List Char) → Bool
  | _ :: [a, b] :: _ => a.isAlpha && b = '$'
  | _ => false

/-- Modelled from the spec: reject administrative UNC shares of the
shape double-backslash, host, drive-letter-dollar. -/
def isAdminShare (l : List Char) : Bool :=
  isUNC l && isAdminShareSegs (pathSegs l)

/-- A drive segment: a letter followed by a colon. -/
def isDriveSeg : List Char → Bool
  | [a, b] => a.isAlpha && b = ':'
  | _ => false

def headIsDrive (ss : List (List Char)) : Bool :=
  match ss.head? with
  | some s => isDriveSeg s
  | none => false

/-- Rejoin canonical segments, ending with a trailing separator and
restoring a UNC prefix. -/
def joinSegs : List (List Char) → List Char
  | [] => []
  | s :: rest => s ++ '\\' :: joinSegs rest

def rebuildPath (unc : Bool) (ss : List (List Char)) : List Char :=
  (if unc then ['\\', '\\'] else []) ++ joinSegs ss

/-- Modelled from the spec: the export-path sanitizer.  Normalize
separators to the canonical backslash style and trim; deny an empty
path; deny when the segment list falls under any deny prefix,
segment-wise and case-insensitively; deny administrative UNC shares;
deny paths that are not absolute (neither UNC nor drive-rooted, the
shallow stand-in for resolution without touching the filesystem); deny
paths outside the allowed roots when roots are configured; on success
return the canonical form with a trailing separator. -/
def validateExportPath (cfg : PathConfig) (raw : List Char) : PathVerdict :=
  if (pathSegs raw).isEmpty then .denied "empty export path"
  else if cfg.denyList.any (fun pre => segPrefixCI (pathSegs pre) (pathSegs raw)) then
    .denied "export path under a denied system prefix"
  else if isAdminShare raw then .denied "administrative share denied"
  else if !(isUNC raw || headIsDrive (pathSegs raw)) then .denied "export path must be absolute"
  else if !cfg.allowedRoots.isEmpty &&
      !cfg.allowedRoots.any (fun r => segPrefixCI (pathSegs r) (pathSegs raw)) then
    .denied "export path outside the allowed roots"
  else .allowed (rebuildPath (isUNC raw) (pathSegs raw))

theorem splitBS_cons_bs (rest : List Char) :
    splitBS ('\\' :: rest) = [] :: splitBS rest := by
  simp [splitBS]

theorem splitBS_cons_ne {c : Char} (rest : List Char) (hc : c ≠ '\\')
    {s0 : List Char} {ss0 : List (List Char)} (h : splitBS rest = s0 :: ss0) :
    splitBS (c :: rest) = (c :: s0) :: ss0 := by
  simp only [splitBS, if_neg hc, h]

theorem splitBS_ne_nil (l : List Char) : splitBS l ≠ [] := by
  induction l with
  | nil => simp [splitBS]
  | cons c rest ih =>
    by_cases hc : c = '\\'
    · subst hc
      rw [splitBS_cons_bs]
      simp
    · cases h : splitBS rest with
      | nil => exact absurd h ih
      | cons s ss =>
        rw [splitBS_cons_ne rest hc h]
        simp

theorem splitBS_no_bs {l : List Char} {s : List Char}
    (hs : s ∈ splitBS l) : '\\' ∉ s := by
  induction l generalizing s with
  | nil =>
    simp [splitBS] at hs
    subst hs
    simp
  | cons c rest ih =>
    by_cases hc : c = '\\'
    · subst hc
      rw [splitBS_cons_bs] at hs
      rcases List.mem_cons.mp hs with h | h
      · subst h; simp
      · exact ih h
    · cases h : splitBS rest with
      | nil => exact absurd h (splitBS_ne_nil rest)
      | cons s0 ss0 =>
        rw [splitBS_cons_ne rest hc h] at hs
        rcases List.mem_cons.mp hs with h1 | h1
        · subst h1
          intro hmem
          rcases List.mem_cons.mp hmem with h2 | h2
          · exact hc h2.symm
          · exact ih (s := s0) (by rw [h]; exact List.mem_cons_self _ _) h2
        · exact ih (by rw [h]; exact List.mem_cons_of_mem _ h1)

theorem splitBS_sub {l s : List Char} {c : Char}
    (hs : s ∈ splitBS l) (hc : c ∈ s) : c ∈ l := by
  induction l generalizing s with
  | nil =>
    simp [splitBS] at hs
    subst hs
    simp at hc
  | cons a rest ih =>
    by_cases ha : a = '\\'
    · subst ha
      rw [splitBS_cons_bs] at hs
      rcases List.mem_cons.mp hs with h | h
      · subst h; simp at hc
      · exact List.mem_cons_of_mem _ (ih h hc)
    · cases h : splitBS rest with
      | nil => exact absurd h (splitBS_ne_nil rest)
      | cons s0 ss0 =>
        rw [splitBS_cons_ne rest ha h] at hs
        rcases List.mem_cons.mp hs with h1 | h1
        · subst h1
          rcases List.mem_cons.mp hc with h2 | h2
          · exact h2 ▸ List.mem_cons_self _ _
          · exact List.mem_cons_of_mem _
              (ih (s := s0) (by rw [h]; exact List.mem_cons_self _ _) h2)
        · exact List.mem_cons_of_mem _
            (ih (by rw [h]; exact List.mem_cons_of_mem _ h1) hc)

theorem splitBS_append_nobs {s : List Char} (t : List Char)
    (h : '\\' ∉ s) : splitBS (s ++ '\\' :: t) = s :: splitBS t := by
  induction s with
  | nil =>
    rw [List.nil_append, splitBS_cons_bs]
  | cons c s' ih =>
    have hc : c ≠ '\\' := fun he => h (he ▸ List.mem_cons_self _ _)
    have h' : '\\' ∉ s' := fun hm => h (List.mem_cons_of_mem _ hm)
    cases hsp : splitBS (s' ++ '\\' :: t) with
    | nil => exact absurd hsp (splitBS_ne_nil _)
    | cons s0 ss0 =>
      have hstep := splitBS_cons_ne (s' ++ '\\' :: t) hc hsp
      rw [List.cons_append, hstep]
      rw [ih h'] at hsp
      injection hsp with h1 h2
      rw [h1, h2]

theorem splitBS_joinSegs {ss : List (List Char)}
    (h : ∀ s ∈ ss, '\\' ∉ s) : splitBS (joinSegs ss) = ss ++ [[]] := by
  induction ss with
  | nil => simp [joinSegs, splitBS]
  | cons s rest ih =>
    have hs : '\\' ∉ s := h s (List.mem_cons_self _ _)
    have hrest : ∀ x ∈ rest, '\\' ∉ x := fun x hx => h x (List.mem_cons_of_mem _ hx)
    show splitBS (s ++ '\\' :: joinSegs rest) = (s :: rest) ++ [[]]
    rw [splitBS_append_nobs _ hs, ih hrest]
    rfl

theorem joinSegs_mem {ss : List (List Char)} {c : Char}
    (h : c ∈ joinSegs ss) : c = '\\' ∨ ∃ s ∈ ss, c ∈ s := by
  induction ss with
  | nil => simp [joinSegs] at h
  | cons s rest ih =>
    simp only [joinSegs, List.mem_append, List.mem_cons] at h
    rcases h with h | h | h
    · exact Or.inr ⟨s, List.mem_cons_self _ _, h⟩
    · exact Or.inl h
    · rcases ih h with h1 | ⟨x, hx, hcx⟩
      · exact Or.inl h1
      · exact Or.inr ⟨x, List.mem_cons_of_mem _ hx, hcx⟩

theorem joinSegs_concat {ss : List (List Char)} (h : ss ≠ []) :
    ∃ m, joinSegs ss = m ++ ['\\'] := by
  induction ss with
  | nil => exact absurd rfl h
  | cons s rest ih =>
    cases rest with
    | nil => exact ⟨s, rfl⟩
    | cons r rest' =>
      obtain ⟨m, hm⟩ := ih (by simp)
      refine ⟨s ++ '\\' :: m, ?_⟩
      show s ++ '\\' :: joinSegs (r :: rest') = (s ++ '\\' :: m) ++ ['\\']
      rw [hm]
      simp

theorem canonPath_no_fwd {l : List Char} {c : Char}
    (h : c ∈ canonPath l) : c ≠ '/' := by
  unfold canonPath at h
  obtain ⟨x, _, hx⟩ := List.mem_map.mp h
  intro he
  subst he
  unfold toBackslash at hx
  split at hx
  · exact absurd hx (by decide)
  · next hne => exact hne hx

theorem pathSegs_mem_splitBS {raw s : List Char} (h : s ∈ pathSegs raw) :
    s ∈ splitBS (canonPath raw) :=
  (List.mem_filter.mp h).1

theorem pathSegs_elem_ne_nil {raw s : List Char} (h : s ∈ pathSegs raw) :
    s ≠ [] := by
  have h2 := (List.mem_filter.mp h).2
  simp at h2
  intro he
  rw [he] at h2
  simp [List.isEmpty] at h2

theorem pathSegs_no_bs {raw s : List Char} (h : s ∈ pathSegs raw) :
    '\\' ∉ s :=
  splitBS_no_bs (pathSegs_mem_splitBS h)

theorem pathSegs_no_fwd {raw s : List Char} (h : s ∈ pathSegs raw) :
    '/' ∉ s := fun hc =>
  canonPath_no_fwd (splitBS_sub (pathSegs_mem_splitBS h) hc) rfl

theorem ws_char_cases {c : Char} (h : isWsChar c = true) :
    c = ' ' ∨ c = '\t' ∨ c = '\n' ∨ c = '\r' ∨ c = '\x0b' ∨
    c = '\x0c' ∨ c = ' ' ∨ c = '﻿' := by
  unfold isWsChar at h
  simpa [Bool.or_eq_true, decide_eq_true_eq, or_assoc] using h

theorem alpha_not_ws {c : Char} (h : c.isAlpha = true) : isWsChar c = false := by
  by_contra hc
  have h2 := ws_char_cases (by simpa using hc)
  rcases h2 with h2 | h2 | h2 | h2 | h2 | h2 | h2 | h2 <;> subst h2 <;>
    exact absurd h (by decide)

theorem alpha_ne_bs {c : Char} (h : c.isAlpha = true) : c ≠ '\\' := by
  intro he
  subst he
  exact absurd h (by decide)

/-- Side conditions under which a rebuilt path reproduces its segments:
either it carries the UNC prefix, or its first segment is a drive
segment. -/
def rebuildHeadOk (unc : Bool) (ss : List (List Char)) : Prop :=
  unc = true ∨ ∃ a rest, a.isAlpha = true ∧ ss = [a, ':'] :: rest

theorem rebuild_no_fwd {unc : Bool} {ss : List (List Char)} {c : Char}
    (hss : ∀ s ∈ ss, '/' ∉ s) (hc : c ∈ rebuildPath unc ss) : c ≠ '/' := by
  unfold rebuildPath at hc
  rcases List.mem_append.mp hc with h | h
  · intro he
    subst he
    cases unc <;> simp at h
  · rcases joinSegs_mem h with h1 | ⟨x, hx, hcx⟩
    · intro he; rw [he] at h1; exact absurd h1 (by decide)
    · intro he; subst he; exact hss x hx hcx

theorem rebuild_head {unc : Bool} {ss : List (List Char)}
    (hok : rebuildHeadOk unc ss) :
    (∃ rest, rebuildPath unc ss = '\\' :: rest) ∨
    (∃ a rest, a.isAlpha = true ∧ a ≠ '\\' ∧ rebuildPath unc ss = a :: rest) := by
  rcases hok with h | ⟨a, rest, ha, hss⟩
  · subst h
    exact Or.inl ⟨'\\' :: joinSegs ss, rfl⟩
  · subst hss
    cases unc
    · exact Or.inr ⟨a, ':' :: '\\' :: joinSegs rest, ha, alpha_ne_bs ha, rfl⟩
    · exact Or.inl ⟨'\\' :: joinSegs ([a, ':'] :: rest), rfl⟩

theorem rebuild_last {unc : Bool} {ss : List (List Char)} (h : ss ≠ []) :
    (rebuildPath unc ss).getLast? = some '\\' := by
  obtain ⟨m, hm⟩ := joinSegs_concat h
  unfold rebuildPath
  rw [hm, ← List.append_assoc, List.getLast?_concat]

/-- A rebuilt path is already canonical: trimmed, all separators
backslashes. -/
theorem rebuild_canon {unc : Bool} {ss : List (List Char)}
    (hne : ss ≠ []) (hfwd : ∀ s ∈ ss, '/' ∉ s) (hok : rebuildHeadOk unc ss) :
    canonPath (rebuildPath unc ss) = rebuildPath unc ss := by
  unfold canonPath
  have htrim : jsTrim (rebuildPath unc ss) = rebuildPath unc ss := by
    apply jsTrim_fix
    · intro c rest2 hc
      rcases rebuild_head hok with ⟨r, hr⟩ | ⟨a, r, ha, _, hr⟩
      · rw [hr] at hc
        injection hc with h1 _
        rw [← h1]
        exact bs_not_ws
      · rw [hr] at hc
        injection hc with h1 _
        rw [← h1]
        exact alpha_not_ws ha
    · intro c hc
      rw [rebuild_last hne] at hc
      injection hc with h1
      rw [← h1]
      exact bs_not_ws
  rw [htrim]
  have hpt : ∀ c ∈ rebuildPath unc ss, toBackslash c = c := by
    intro c hc
    unfold toBackslash
    rw [if_neg (rebuild_no_fwd hfwd hc)]
  rw [List.map_congr_left hpt]
  simp

theorem rebuild_segs {unc : Bool} {ss : List (List Char)}
    (hne : ss ≠ []) (hnil : ∀ s ∈ ss, s ≠ []) (hbs : ∀ s ∈ ss, '\\' ∉ s)
    (hfwd : ∀ s ∈ ss, '/' ∉ s) (hok : rebuildHeadOk unc ss) :
    pathSegs (rebuildPath unc ss) = ss := by
  unfold pathSegs
  rw [rebuild_canon hne hfwd hok]
  have hsplit : splitBS (rebuildPath unc ss) =
      (if unc then [[], []] else []) ++ (ss ++ [[]]) := by
    unfold rebuildPath
    cases unc
    · simp only [if_neg (by simp : ¬False), Bool.false_eq_true]
      simp only [List.nil_append]
      exact splitBS_joinSegs hbs
    · simp only [if_pos rfl]
      show splitBS ('\\' :: '\\' :: joinSegs ss) = _
      rw [splitBS_cons_bs, splitBS_cons_bs, splitBS_joinSegs hbs]
      rfl
  rw [hsplit, List.filter_append, List.filter_append]
  have h1 : List.filter (fun s => !s.isEmpty) (if unc then [[], []] else []) = ([] : List (List Char)) := by
    cases unc <;> simp
  have h2 : List.filter (fun s => !s.isEmpty) [([] : List Char)] = [] := by simp
  have h3 : List.filter (fun s => !s.isEmpty) ss = ss := by
    apply List.filter_eq_self.mpr
    intro a ha
    simp only [Bool.not_eq_true']
    cases he : a.isEmpty
    · rfl
    · exact absurd (List.isEmpty_iff.mp he) (hnil a ha)
  rw [h1, h2, h3]
  simp

theorem rebuild_isUNC {unc : Bool} {ss : List (List Char)}
    (hne : ss ≠ []) (hfwd : ∀ s ∈ ss, '/' ∉ s) (hok : rebuildHeadOk unc ss) :
    isUNC (rebuildPath unc ss) = unc := by
  unfold isUNC
  rw [rebuild_canon hne hfwd hok]
  cases hu : unc with
  | false =>
    rcases hok with h | ⟨a, rest, ha, hss⟩
    · rw [hu] at h
      simp at h
    · subst hss
      have hform : rebuildPath false ([a, ':'] :: rest) =
          a :: ':' :: '\\' :: joinSegs rest := rfl
      rw [hform]
      split
      · next heq =>
        injection heq with h1 _
        exact absurd h1 (alpha_ne_bs ha)
      · rfl
  | true =>
    have hform : rebuildPath true ss = '\\' :: '\\' :: joinSegs ss := rfl
    rw [hform]
    rfl

theorem headIsDrive_inv {ss : List (List Char)} (h : headIsDrive ss = true) :
    ∃ a rest, a.isAlpha = true ∧ ss = [a, ':'] :: rest := by
  cases hss : ss with
  | nil => rw [hss] at h; simp [headIsDrive] at h
  | cons s0 rest =>
    rw [hss] at h
    have h2 : isDriveSeg s0 = true := by simpa [headIsDrive] using h
    cases s0 with
    | nil => simp [isDriveSeg] at h2
    | cons a t =>
      cases t with
      | nil => simp [isDriveSeg] at h2
      | cons b t2 =>
        cases t2 with
        | nil =>
          have h3 : a.isAlpha = true ∧ b = ':' := by simpa [isDriveSeg] using h2
          exact ⟨a, rest, h3.1, by rw [h3.2]⟩
        | cons x t3 => simp [isDriveSeg] at h2

/-- Inversion of a successful export-path validation: every guard
passed and the normalized path is the rebuilt canonical form. -/
theorem validate_allowed_inv {cfg : PathConfig} {raw n : List Char}
    (h : validateExportPath cfg raw = .allowed n) :
    (pathSegs raw).isEmpty = false ∧
    cfg.denyList.any (fun pre => segPrefixCI (pathSegs pre) (pathSegs raw)) = false ∧
    isAdminShare raw = false ∧
    (isUNC raw || headIsDrive (pathSegs raw)) = true ∧
    (!cfg.allowedRoots.isEmpty &&
      !cfg.allowedRoots.any (fun r => segPrefixCI (pathSegs r) (pathSegs raw))) = false ∧
    n = rebuildPath (isUNC raw) (pathSegs raw) := by
  unfold validateExportPath at h
  split_ifs at h with h1 h2 h3 h4 h5
  refine ⟨by simpa using h1, by simpa using h2, by simpa using h3, ?_, by simpa using h5, ?_⟩
  · have h4b : ¬(!(isUNC raw || headIsDrive (pathSegs raw))) = true := h4
    simp only [Bool.not_eq_true, Bool.not_eq_false'] at h4b
    exact h4b
  · injection h with hn
    exact hn.symm

/-- Re-validating the normalized form of an allowed export path yields
the same allowed path unchanged. -/
theorem validate_idem {cfg : PathConfig} {raw n : List Char}
    (h : validateExportPath cfg raw = .allowed n) :
    validateExportPath cfg n = .allowed n := by
  obtain ⟨h1, h2, h3, h4, h5, hn⟩ := validate_allowed_inv h
  have hne : pathSegs raw ≠ [] := by
    intro he
    rw [he] at h1
    simp at h1
  have hnil : ∀ s ∈ pathSegs raw, s ≠ [] := fun s hs => pathSegs_elem_ne_nil hs
  have hbs : ∀ s ∈ pathSegs raw, '\\' ∉ s := fun s hs => pathSegs_no_bs hs
  have hfwd : ∀ s ∈ pathSegs raw, '/' ∉ s := fun s hs => pathSegs_no_fwd hs
  have hok : rebuildHeadOk (isUNC raw) (pathSegs raw) := by
    cases hu : isUNC raw with
    | true => exact Or.inl rfl
    | false =>
      rw [hu, Bool.false_or] at h4
      obtain ⟨a, rest, ha, hss⟩ := headIsDrive_inv h4
      exact Or.inr ⟨a, rest, ha, hss⟩
  have hsegs : pathSegs n = pathSegs raw := by
    rw [hn]
    exact rebuild_segs hne hnil hbs hfwd hok
  have hunc : isUNC n = isUNC raw := by
    rw [hn]
    exact rebuild_isUNC hne hfwd hok
  have hadmin : isAdminShare n = false := by
    unfold isAdminShare at h3 ⊢
    rw [hsegs, hunc]
    exact h3
  unfold validateExportPath
  rw [hsegs, hunc, h1, h2, hadmin, h4, h5]
  simp only [Bool.false_eq_true, if_false, Bool.not_true, Bool.not_false, if_true]
  rw [← hn]

/-- A path whose segments fall under a configured deny prefix,
segment-wise and case-insensitively, is denied. -/
theorem validate_denies_under_prefix {cfg : PathConfig} {raw pre : List Char}
    (hpre : pre ∈ cfg.denyList)
    (hmatch : segPrefixCI (pathSegs pre) (pathSegs raw) = true) :
    (validateExportPath cfg raw).isDenied = true := by
  unfold validateExportPath
  by_cases h1 : (pathSegs raw).isEmpty = true
  · rw [if_pos h1]
    rfl
  · rw [if_neg h1]
    have hany : cfg.denyList.any (fun p => segPrefixCI (pathSegs p) (pathSegs raw)) = true :=
      List.any_eq_true.mpr ⟨pre, hpre, hmatch⟩
    rw [if_pos hany]
    rfl

/-- Verdict of the SQL statement validator. -/
inductive SqlVerdict where
  | allowed (normalized : List Char)
  | denied (reason : String)
deriving DecidableEq

def SqlVerdict.isDenied : SqlVerdict → Bool
  | .allowed _ => false
  | .denied _ => true

/-- Scanner mode while stripping SQL comments. -/
inductive StripMode where
  | norm
  | line
  | blockC
  | str

/-- Modelled from the spec: strip line and block SQL comments, leaving
string literals intact (a comment opener inside a literal is text). -/
def stripC : List Char → StripMode → List Char
  | [], _ => []
  | '-' :: '-' :: rest, .norm => stripC rest .line
  | '/' :: '*' :: rest, .norm => stripC rest .blockC
  | '\'' :: rest, .norm => '\'' :: stripC rest .str
  | c :: rest, .norm => c :: stripC rest .norm
  | '\n' :: rest, .line => '\n' :: stripC rest .norm
  | _ :: rest, .line => stripC rest .line
  | '*' :: '/' :: rest, .blockC => ' ' :: stripC rest .norm
  | _ :: rest, .blockC => stripC rest .blockC
  | '\'' :: rest, .str => '\'' :: stripC rest .norm
  | c :: rest, .str => c :: stripC rest .str

def stripComments (l : List Char) : List Char := stripC l .norm

/-- The comment-stripped, trimmed statement text. -/
def sqlNormalized (raw : List Char) : List Char := jsTrim (stripComments raw)

/-- The statement body: the normalized text with one trailing statement
separator tolerated (dropped), trimmed again. -/
def sqlBody (raw : List Char) : List Char :=
  let t := sqlNormalized raw
  jsTrim (if t.getLast? = some ';' then t.dropLast else t)

def isWordChar (c : Char) : Bool := c.isAlphanum || c = '_'

/-- Modelled from the spec: split the statement body into whole-word
tokens, never scanning the inside of string literals as keywords.  The
accumulator holds the current word reversed; the flag is true inside a
string literal. -/
def tokGo : List Char → List Char → Bool → List (List Char)
  | [], acc, _ => if acc.isEmpty then [] else [acc.reverse]
  | c :: rest, acc, true =>
    if c = '\'' then
      (if acc.isEmpty then [] else [acc.reverse]) ++ tokGo rest [] false
    else tokGo rest acc true
  | c :: rest, acc, false =>
    if c = '\'' then
      (if acc.isEmpty then [] else [acc.reverse]) ++ tokGo rest [] true
    else if isWordChar c then tokGo rest (c :: acc) false
    else (if acc.isEmpty then [] else [acc.reverse]) ++ tokGo rest [] false

def toUpperL (l : List Char) : List Char := l.map Char.toUpper

/-- The upper-cased word tokens of the statement body. -/
def sqlToks (raw : List Char) : List (List Char) :=
  (tokGo (sqlBody raw) [] false).map toUpperL

/-- Modelled from the spec: the validator's keyword blocklist. -/
def sqlBlocklist : List (List Char) :=
  ["INSERT", "UPDATE", "DELETE", "DROP", "ALTER", "CREATE", "TRUNCATE",
   "MERGE", "GRANT", "REVOKE", "EXECUTE", "EXEC", "CALL", "BEGIN",
   "DECLARE", "PRAGMA"].map String.toList

/-- The mutating first keywords named by the specification. -/
def sqlMutStarters : List (List Char) :=
  ["INSERT", "UPDATE", "DELETE", "DROP", "ALTER", "CREATE", "TRUNCATE",
   "MERGE", "GRANT", "REVOKE", "EXEC", "BEGIN"].map String.toList

/-- Filesystem-redirect patterns: an INTO token directly followed by
OUTFILE or DUMPFILE. -/
def hasIntoRedirect : List (List Char) → Bool
  | a :: b :: rest =>
    (a = "INTO".toList && (b = "OUTFILE".toList || b = "DUMPFILE".toList)) ||
      hasIntoRedirect (b :: rest)
  | _ => false

/-- Modelled from the spec: the read-only SQL statement validator.
Fail-closed, in order: empty input is denied; an internal statement
separator is denied (one trailing separator is tolerated); the first
token must be SELECT or WITH; any blocklisted whole-word token is
denied; an INTO OUTFILE / INTO DUMPFILE redirect is denied; otherwise
the normalized single statement is allowed. -/
def validateSqlStatement (raw : List Char) : SqlVerdict :=
  if (sqlNormalized raw).isEmpty then .denied "empty statement"
  else if hasChar (sqlBody raw) ';' then .denied "multiple statements are not allowed"
  else if (sqlToks raw).head? = some ("SELECT".toList) ||
      (sqlToks raw).head? = some ("WITH".toList) then
    if (sqlToks raw).any (fun tk => sqlBlocklist.contains tk) then
      .denied "blocklisted keyword"
    else if hasIntoRedirect (sqlToks raw) then
      .denied "filesystem redirect is not allowed"
    else .allowed (sqlBody raw)
  else .denied "statement must start with SELECT or WITH"

theorem mutStarters_in_blocklist (ft : List Char) (h : ft ∈ sqlMutStarters) :
    sqlBlocklist.contains ft = true := by
  fin_cases h <;> decide

/-- Any of the three dangerous shapes makes the validator deny. -/
theorem validateSql_denies (raw : List Char)
    (h : hasChar (sqlBody raw) ';' = true ∨
      (∃ ft, (sqlToks raw).head? = some ft ∧ ft ∈ sqlMutStarters) ∨
      hasIntoRedirect (sqlToks raw) = true) :
    (validateSqlStatement raw).isDenied = true := by
  unfold validateSqlStatement
  split_ifs with h1 h2 h3 h4 h5 <;> try rfl
  exfalso
  rcases h with hsep | ⟨ft, hft, hmem⟩ | hinto
  · exact h2 hsep
  · apply h4
    exact List.any_eq_true.mpr
      ⟨ft, List.mem_of_mem_head? (by simp [hft]), mutStarters_in_blocklist ft hmem⟩
  · exact h5 hinto

/-- Modelled from the spec: the CSV field escaping emitted by the spool
generator, doubling every literal double quote in a value. -/
def escQuotes : List Char → List Char
  | [] => []
  | c :: rest => if c = '"' then '"' :: '"' :: escQuotes rest else c :: escQuotes rest

/-- A field as the emitted row logic renders it: the escaped value
wrapped in double quotes. -/
def renderField (v : List Char) : List Char := '"' :: (escQuotes v ++ ['"'])

/-- Join rendered fields with commas. -/
def joinComma : List (List Char) → List Char
  | [] => []
  | [x] => x
  | x :: rest => x ++ ',' :: joinComma rest

/-- The spool header line: each column name individually quoted,
comma-joined. -/
def headerLine (cols : List (List Char)) : List Char :=
  joinComma (cols.map renderField)

/-- A data row as the emitted row logic renders it from source values. -/
def renderRow (vals : List (List Char)) : List Char :=
  joinComma (vals.map renderField)

/-- The word-for-word reading of the specification sentence: replace
each literal double quote with two double quotes. -/
def escQuotesSpec (v : List Char) : List Char :=
  (v.map (fun c => if c = '"' then ['"', '"'] else [c])).flatten

/-- One emitted SELECT-list item: quote-wrap and REPLACE-escape a source
column, SQL*Plus style. -/
def spoolSelectItem (col : List Char) : List Char :=
  ("'\"'||REPLACE(").toList ++ col ++ (",'\"','\"\"')||'\"'").toList

def spoolSelectList (cols : List (List Char)) : List Char :=
  joinComma (cols.map spoolSelectItem)

/-- Modelled from the spec: the spool script generator.  Emits in fixed
order the environment directives, the SPOOL directive targeting the
export path plus report name, the quoted header line, the row-emission
SELECT, SPOOL OFF and EXIT.  The ambient clock is passed in as `now` to
state that no timestamp is embedded: the output never depends on it. -/
def generateSpool (cols : List (List Char)) (source exportPath reportName : List Char)
    (now : Nat) : List Char :=
  ("SET PAGESIZE 0\nSET FEEDBACK OFF\nSET HEADING OFF\nSET TRIMSPOOL ON\n").toList ++
  ("SPOOL ").toList ++ exportPath ++ reportName ++ (".csv\n").toList ++
  ("PROMPT ").toList ++ headerLine cols ++ ("\n").toList ++
  ("SELECT ").toList ++ spoolSelectList cols ++ (" FROM ").toList ++ source ++ (";\n").toList ++
  ("SPOOL OFF\nEXIT\n").toList

theorem escQuotes_eq_spec (v : List Char) : escQuotes v = escQuotesSpec v := by
  induction v with
  | nil => rfl
  | cons c rest ih =>
    by_cases hc : c = '"'
    · simp [escQuotes, escQuotesSpec, hc, List.flatten] at *
      exact ih
    · simp [escQuotes, escQuotesSpec, hc, List.flatten] at *
      exact ih

/-- Characters needing HTML escaping, with their replacement entities,
translated from `app/static/app.js` lines 260-267. -/
def repHtml (c : Char) : List Char :=
  if c = '&' then ("&amp;").toList
  else if c = '<' then ("&lt;").toList
  else if c = '>' then ("&gt;").toList
  else if c = '"' then ("&quot;").toList
  else if c = '\'' then ['&', '#', '0', '3', '9', ';']
  else [c]

/-- Translated from `app/static/app.js` lines 260-267: global
replacement of the five markup-significant characters. -/
def escapeHtml : List Char → List Char
  | [] => []
  | c :: rest => repHtml c ++ escapeHtml rest

def htmlEntities : List (List Char) :=
  [("&amp;").toList, ("&lt;").toList, ("&gt;").toList, ("&quot;").toList,
   ['&', '#', '0', '3', '9', ';']]

/-- Every ampersand in the list starts one of the five replacement
entities. -/
inductive AmpGuarded : List Char → Prop where
  | nil : AmpGuarded []
  | nonamp (c : Char) (l : List Char) : c ≠ '&' → AmpGuarded l → AmpGuarded (c :: l)
  | entity (e l : List Char) : e ∈ htmlEntities → AmpGuarded l → AmpGuarded (e ++ l)

def noMarkupChar (c : Char) : Bool :=
  !(c = '<' || c = '>' || c = '"' || c = '\'')

theorem escapeHtml_all_noMarkup (s : List Char) :
    (escapeHtml s).all noMarkupChar = true := by
  induction s with
  | nil => rfl
  | cons c rest ih =>
    show ((repHtml c ++ escapeHtml rest).all noMarkupChar) = true
    rw [List.all_append, ih, Bool.and_true]
    unfold repHtml
    split_ifs with e1 e2 e3 e4 e5
    · decide
    · decide
    · decide
    · decide
    · decide
    · simp [List.all, noMarkupChar, e2, e3, e4, e5]

theorem escapeHtml_ampGuarded (s : List Char) : AmpGuarded (escapeHtml s) := by
  induction s with
  | nil => exact AmpGuarded.nil
  | cons c rest ih =>
    show AmpGuarded (repHtml c ++ escapeHtml rest)
    by_cases h1 : c = '&'
    · exact AmpGuarded.entity _ _ (by simp [repHtml, h1, htmlEntities]) ih
    · by_cases h2 : c = '<'
      · exact AmpGuarded.entity _ _ (by simp [repHtml, h1, h2, htmlEntities]) ih
      · by_cases h3 : c = '>'
        · exact AmpGuarded.entity _ _ (by simp [repHtml, h1, h2, h3, htmlEntities]) ih
        · by_cases h4 : c = '"'
          · exact AmpGuarded.entity _ _ (by simp [repHtml, h1, h2, h3, h4, htmlEntities]) ih
          · by_cases h5 : c = '\''
            · exact AmpGuarded.entity _ _ (by simp [repHtml, h1, h2, h3, h4, h5, htmlEntities]) ih
            · have hform : repHtml c ++ escapeHtml rest = c :: escapeHtml rest := by
                simp [repHtml, h1, h2, h3, h4, h5]
              rw [hform]
              exact AmpGuarded.nonamp c _ h1 ih

/-- A row of the folder-picker list: name, path and the denied flag
carried in the `data-denied` attribute. -/
structure FolderEntry where
  name : List Char
  path : List Char
  denied : Bool
deriving DecidableEq

/-- The mutable state of the folder-picker modal: the path being listed
and the selected entry, if any. -/
structure ModalState where
  currentPath : List Char
  selected : Option FolderEntry
deriving DecidableEq

/-- User-visible events of the folder-picker modal. -/
inductive ModalEvent where
  | click (row : FolderEntry)
  | dblclick (row : FolderEntry)
  | navigate (path : List Char)
  | openModal
  | closeModal
deriving DecidableEq

/-- Translated from `app/static/app.js`: `selectRow` (lines 541-554)
returns without change on a denied row and otherwise records the row
with `denied := false`; the double-click handler (lines 582-590) ignores
denied rows and otherwise navigates (`listPath`, which clears the
selection); `listPath` via the root selector, Go and Up buttons clears
the selection; opening and closing the modal clears the selection. -/
def modalStep (s : ModalState) : ModalEvent → ModalState
  | .click row =>
    if row.denied then s
    else { s with selected := some { row with denied := false } }
  | .dblclick row =>
    if row.denied then s
    else { currentPath := row.path, selected := none }
  | .navigate p => { currentPath := p, selected := none }
  | .openModal => { s with selected := none }
  | .closeModal => { s with selected := none }

def modalInit : ModalState := { currentPath := [], selected := none }

/-- Run the modal from its initial state through a list of events. -/
def modalRun (evs : List ModalEvent) : ModalState :=
  evs.foldl modalStep modalInit

def selectionOk (s : ModalState) : Prop :=
  ∀ e, s.selected = some e → e.denied = false

theorem modalStep_preserves {s : ModalState} (hs : selectionOk s)
    (ev : ModalEvent) : selectionOk (modalStep s ev) := by
  intro e he
  cases ev with
  | click row =>
    by_cases hd : row.denied
    · exact hs e (by simpa [modalStep, hd] using he)
    · have : ({ row with denied := false } : FolderEntry) = e := by
        have h2 := he
        simp [modalStep, hd] at h2
        exact h2
      rw [← this]
  | dblclick row =>
    by_cases hd : row.denied
    · exact hs e (by simpa [modalStep, hd] using he)
    · simp [modalStep, hd] at he
  | navigate p => simp [modalStep] at he
  | openModal => simp [modalStep] at he
  | closeModal => simp [modalStep] at he

theorem modalRun_selectionOk (evs : List ModalEvent) :
    selectionOk (modalRun evs) := by
  have hgen : ∀ (l : List ModalEvent) (s : ModalState),
      selectionOk s → selectionOk (l.foldl modalStep s) := by
    intro l
    induction l with
    | nil => intro s hs; exact hs
    | cons ev rest ih =>
      intro s hs
      exact ih _ (modalStep_preserves hs ev)
  exact hgen evs modalInit (fun e he => by simp [modalInit] at he)

/-- A denied row leaves the modal state untouched, for both clicking and
double-clicking. -/
theorem modalStep_denied_frozen (s : ModalState) (row : FolderEntry)
    (hd : row.denied = true) :
    modalStep s (.click row) = s ∧ modalStep s (.dblclick row) = s := by
  constructor <;> simp [modalStep, hd]

/-- Case-insensitive consumption of a pattern prefix; returns the rest
of the input on success. -/
def dropCI : List Char → List Char → Option (List Char)
  | [], l => some l
  | _ :: _, [] => none
  | p :: ps, c :: cs => if c.toLower = p.toLower then dropCI ps cs else none

/-- Characters admitted by the capturing group of the filename regex
(anything but a double quote or a semicolon). -/
def capOk (c : Char) : Bool := !(c = '"' || c = ';')

def fnPat : List Char := ['f', 'i', 'l', 'e', 'n', 'a', 'm', 'e']

def utfPat : List Char := ['u', 't', 'f', '-', '8', '\'', '\'']

/-- The one-or-more capture: the longest admissible prefix, failing when
it is empty. -/
def altCapture (r : List Char) : Option (List Char) :=
  let cap := r.takeWhile capOk
  if cap.isEmpty then none else some cap

/-- First alternative of the optional prefix: a case-insensitive UTF-8
marker, then the capture. -/
def altUtf (r2 : List Char) : Option (List Char) :=
  match dropCI utfPat r2 with
  | some r3 => altCapture r3
  | none => none

/-- Second alternative: a literal double quote, then the capture. -/
def altQuote : List Char → Option (List Char)
  | '"' :: r3 => altCapture r3
  | _ => none

/-- The optional-prefix alternation of the regex, with backtracking
order: a UTF-8 marker, then a double quote, then nothing. -/
def matchVal (r2 : List Char) : Option (List Char) :=
  altUtf r2 <|> altQuote r2 <|> altCapture r2

/-- The optional star and the equals sign after the `filename` word. -/
def afterEq : List Char → Option (List Char)
  | '*' :: '=' :: r2 => some r2
  | '=' :: r2 => some r2
  | _ => none

/-- A match of the filename regex anchored at the current position:
`filename` case-insensitively, an optional star, an equals sign, the
optional prefix and the capture. -/
def matchAt (l : List Char) : Option (List Char) :=
  match dropCI fnPat l with
  | none => none
  | some r1 =>
    match afterEq r1 with
    | none => none
    | some r2 => matchVal r2

/-- The first (leftmost) match of the filename regex, as `exec` finds
it. -/
def firstMatch : List Char → Option (List Char)
  | [] => none
  | c :: t => matchAt (c :: t) <|> firstMatch t

def hexVal (c : Char) : Option Nat :=
  if '0' ≤ c ∧ c ≤ '9' then some (c.toNat - '0'.toNat)
  else if 'a' ≤ c ∧ c ≤ 'f' then some (c.toNat - 'a'.toNat + 10)
  else if 'A' ≤ c ∧ c ≤ 'F' then some (c.toNat - 'A'.toNat + 10)
  else none

/-- Model of the browser builtin `decodeURIComponent`, simplified to
single-byte percent decoding (multi-byte UTF-8 recomposition and error
signalling on malformed input are elided; malformed escapes are kept
verbatim). -/
def jsDecodeURI : List Char → List Char
  | '%' :: a :: b :: rest =>
    match hexVal a, hexVal b with
    | some x, some y => Char.ofNat (16 * x + y) :: jsDecodeURI rest
    | _, _ => '%' :: jsDecodeURI (a :: b :: rest)
  | c :: rest => c :: jsDecodeURI rest
  | [] => []

/-- Translated from `app/static/app.js` lines 55-60: a falsy header
yields null; otherwise the first regex match's capture, with double
quotes removed, trimmed and URI-decoded, or null when there is no
match. -/
def getFilenameFromDisposition (d : List Char) : Option (List Char) :=
  if d.isEmpty then none
  else
    match firstMatch d with
    | none => none
    | some cap => some (jsDecodeURI (jsTrim (cap.filter (fun c => !(c = '"')))))

theorem takeWhile_all (p : Char → Bool) (l : List Char) :
    (l.takeWhile p).all p = true :=
  List.all_eq_true.mpr fun _ hx => List.mem_takeWhile_imp hx

theorem altCapture_all {r cap : List Char} (h : altCapture r = some cap) :
    cap.all capOk = true := by
  simp only [altCapture] at h
  split_ifs at h
  injection h with h2
  rw [← h2]
  exact takeWhile_all _ _

theorem altUtf_all {r cap : List Char} (h : altUtf r = some cap) :
    cap.all capOk = true := by
  unfold altUtf at h
  split at h
  · exact altCapture_all h
  · simp at h

theorem altQuote_all {r cap : List Char} (h : altQuote r = some cap) :
    cap.all capOk = true := by
  unfold altQuote at h
  split at h
  · exact altCapture_all h
  · simp at h

theorem matchVal_all {r cap : List Char} (h : matchVal r = some cap) :
    cap.all capOk = true := by
  unfold matchVal at h
  cases h1 : altUtf r with
  | some x =>
    rw [h1] at h
    have hx : x = cap := by simpa using h
    exact hx ▸ altUtf_all h1
  | none =>
    rw [h1, Option.none_orElse] at h
    cases h2 : altQuote r with
    | some y =>
      rw [h2] at h
      have hy : y = cap := by simpa using h
      exact hy ▸ altQuote_all h2
    | none =>
      rw [h2, Option.none_orElse] at h
      exact altCapture_all h

theorem matchAt_all {l cap : List Char} (h : matchAt l = some cap) :
    cap.all capOk = true := by
  unfold matchAt at h
  split at h
  · simp at h
  · split at h
    · simp at h
    · exact matchVal_all h

theorem firstMatch_all {d cap : List Char} (h : firstMatch d = some cap) :
    cap.all capOk = true := by
  induction d with
  | nil => simp [firstMatch] at h
  | cons c t ih =>
    unfold firstMatch at h
    cases h1 : matchAt (c :: t) with
    | some x =>
      rw [h1] at h
      simp [Option.orElse] at h
      subst h
      exact matchAt_all h1
    | none =>
      rw [h1] at h
      simp only [Option.none_orElse] at h
      exact ih h

/-- Example sanitizer configuration used by the concrete scenarios: the
default denylist contains the Windows system prefix, no root
confinement. -/
def exCfg : PathConfig := ⟨[("C:\\Windows").toList], []⟩

/-- Claim C1: every raw SQL text that contains an internal statement
separator, or whose first statement starts with one of the mutating
keywords INSERT, UPDATE, DELETE, DROP, ALTER, CREATE, TRUNCATE, MERGE,
GRANT, REVOKE, EXEC or BEGIN, or that contains an INTO OUTFILE or INTO
DUMPFILE redirect, is denied by `validateSqlStatement`, never
allowed. -/
theorem claim_c1_sql_denies (raw : List Char)
    (h : hasChar (sqlBody raw) ';' = true ∨
      (∃ ft, (sqlToks raw).head? = some ft ∧ ft ∈ sqlMutStarters) ∨
      hasIntoRedirect (sqlToks raw) = true) :
    (validateSqlStatement raw).isDenied = true :=
  validateSql_denies raw h

theorem claim_c1_witness :
    (validateSqlStatement (("DROP TABLE x").toList)).isDenied = true :=
  claim_c1_sql_denies _ (Or.inr (Or.inl ⟨("DROP").toList, by decide, by decide⟩))

/-- Claim C2: `validateExportPath` matches deny prefixes segment-wise
and case-insensitively: any path whose segments fall under a configured
deny prefix is denied, the path `C:\Windows\System32` falls under the
`C:\Windows` rule, while the sibling `C:\Windows2` does not match that
rule and is allowed. -/
theorem claim_c2_deny_prefix_segmentwise :
    (∀ (cfg : PathConfig) (raw pre : List Char), pre ∈ cfg.denyList →
      segPrefixCI (pathSegs pre) (pathSegs raw) = true →
      (validateExportPath cfg raw).isDenied = true) ∧
    segPrefixCI (pathSegs (("C:\\Windows").toList))
      (pathSegs (("C:\\Windows\\System32").toList)) = true ∧
    segPrefixCI (pathSegs (("C:\\Windows").toList))
      (pathSegs (("C:\\Windows2").toList)) = false ∧
    validateExportPath exCfg (("C:\\Windows2").toList) =
      .allowed (("C:\\Windows2\\").toList) :=
  ⟨fun _ _ _ hpre hm => validate_denies_under_prefix hpre hm,
   by decide, by decide, by decide⟩

theorem claim_c2_witness :
    (validateExportPath exCfg (("C:\\Windows\\System32").toList)).isDenied = true :=
  claim_c2_deny_prefix_segmentwise.1 exCfg (("C:\\Windows\\System32").toList)
    (("C:\\Windows").toList) (by decide) (by decide)

/-- Claim C3: the spool generator renders a field by replacing each
literal double quote of the source value with two double quotes and
wrapping the whole field in double quotes, joins fields with commas, and
in particular renders the value Lu"is as "Lu""is" and the header for
columns id,name as "id","name". -/
theorem claim_c3_field_quoting :
    (∀ v : List Char, renderField v = '"' :: (escQuotesSpec v ++ ['"'])) ∧
    renderField (("Lu\"is").toList) = ("\"Lu\"\"is\"").toList ∧
    headerLine [("id").toList, ("name").toList] = ("\"id\",\"name\"").toList ∧
    (∀ u v : List Char, renderRow [u, v] = renderField u ++ ',' :: renderField v) := by
  refine ⟨fun v => ?_, by decide, by decide, fun u v => rfl⟩
  unfold renderField
  rw [escQuotes_eq_spec]

/-- Claim C4: export-path normalization is idempotent:
`ensureTrailingSeparator` applied to its own result yields the same
string for every input, and re-validating the normalized form of an
allowed export path returns the same allowed path unchanged. -/
theorem claim_c4_normalization_idempotent :
    (∀ p : List Char,
      ensureTrailingSeparator (ensureTrailingSeparator p) = ensureTrailingSeparator p) ∧
    (∀ (cfg : PathConfig) (p n : List Char),
      validateExportPath cfg p = .allowed n → validateExportPath cfg n = .allowed n) :=
  ⟨ensureTrailingSeparator_idem, fun _ _ _ h => validate_idem h⟩

theorem claim_c4_witness :
    ensureTrailingSeparator (ensureTrailingSeparator (("D:\\Reports").toList)) =
      ensureTrailingSeparator (("D:\\Reports").toList) ∧
    validateExportPath exCfg (("D:\\Reports\\").toList) =
      .allowed (("D:\\Reports\\").toList) :=
  ⟨claim_c4_normalization_idempotent.1 _,
   claim_c4_normalization_idempotent.2 exCfg (("D:\\Reports").toList) _ (by decide)⟩

/-- Claim C5: every accepted export path is normalized to end with a
trailing separator; the frontend helper likewise appends one to every
non-empty value; in particular D:\Reports normalizes to D:\Reports\. -/
theorem claim_c5_trailing_separator :
    (∀ (cfg : PathConfig) (p n : List Char), validateExportPath cfg p = .allowed n →
      (endsWithChar n '\\' || endsWithChar n '/') = true) ∧
    (∀ p : List Char, p ≠ [] →
      (endsWithChar (ensureTrailingSeparator p) '\\' ||
        endsWithChar (ensureTrailingSeparator p) '/') = true) ∧
    validateExportPath exCfg (("D:\\Reports").toList) =
      .allowed (("D:\\Reports\\").toList) := by
  refine ⟨?_, fun p hp => ensureTrailingSeparator_ends_sep hp, by decide⟩
  intro cfg p n h
  obtain ⟨h1, _, _, _, _, hn⟩ := validate_allowed_inv h
  have hne : pathSegs p ≠ [] := by
    intro he
    rw [he] at h1
    simp at h1
  have hlast : n.getLast? = some '\\' := by
    rw [hn]
    exact rebuild_last hne
  simp [endsWithChar, hlast]

theorem claim_c5_witness :
    (endsWithChar (("D:\\Reports\\").toList) '\\' ||
      endsWithChar (("D:\\Reports\\").toList) '/') = true :=
  claim_c5_trailing_separator.1 exCfg (("D:\\Reports").toList) _ (by decide)

/-- Claim C6 counterexample: the path normalization cited by the claim
(`ensureTrailingSeparator`, app.js lines 92-100) emits, for the input
a/b\c, an output that contains both a forward slash and a backslash, so
the normalized form does not always use one consistent separator
style. -/
theorem claim_c6_counterexample :
    '/' ∈ ensureTrailingSeparator (("a/b\\c").toList) ∧
    '\\' ∈ ensureTrailingSeparator (("a/b\\c").toList) := by decide

/-- Claim C6 amended: the frontend helper `ensureTrailingSeparator`
performs no separator canonicalization: its output contains both
separator styles only when the trimmed input already does (it never
introduces mixing on single-style inputs); the backend sanitizer as
modelled from the spec does canonicalize, so an allowed normalized path
never contains a forward slash. -/
theorem claim_c6_amended :
    (∀ p : List Char, '/' ∈ ensureTrailingSeparator p →
      '\\' ∈ ensureTrailingSeparator p →
      ('/' ∈ jsTrim p ∧ '\\' ∈ jsTrim p)) ∧
    (∀ (cfg : PathConfig) (p n : List Char),
      validateExportPath cfg p = .allowed n → '/' ∉ n) := by
  refine ⟨fun p hf hb => ensureTrailingSeparator_mixed_only_if p hf hb, ?_⟩
  intro cfg p n h hc
  obtain ⟨_, _, _, _, _, hn⟩ := validate_allowed_inv h
  have hfwd : ∀ s ∈ pathSegs p, '/' ∉ s := fun s hs => pathSegs_no_fwd hs
  exact rebuild_no_fwd hfwd (hn ▸ hc) rfl

theorem claim_c6_witness :
    '/' ∈ jsTrim (("a/b\\c").toList) ∧ '\\' ∈ jsTrim (("a/b\\c").toList) :=
  claim_c6_amended.1 (("a/b\\c").toList) (by decide) (by decide)

/-- Claim C7: the spool generator is deterministic: on identical inputs
its output is byte-identical, independent in particular of the ambient
clock, so no timestamp is embedded. -/
theorem claim_c7_deterministic (cols : List (List Char))
    (source exportPath reportName : List Char) (t1 t2 : Nat) :
    generateSpool cols source exportPath reportName t1 =
      generateSpool cols source exportPath reportName t2 := rfl

/-- Claim C8: for every input, `escapeHtml` emits no literal left or
right angle bracket, double quote or apostrophe, and every ampersand of
the output starts one of the five replacement entities, so interpolating
escaped values into the preview table introduces no markup. -/
theorem claim_c8_escapeHtml_safe (s : List Char) :
    (escapeHtml s).all noMarkupChar = true ∧ AmpGuarded (escapeHtml s) :=
  ⟨escapeHtml_all_noMarkup s, escapeHtml_ampGuarded s⟩

/-- Claim C9: in the folder-picker modal the selection never holds a
denied entry: whatever events occur, a selected entry has the denied
flag false, and both clicking and double-clicking a denied row leave the
state unchanged. -/
theorem claim_c9_selection_never_denied :
    (∀ (evs : List ModalEvent) (e : FolderEntry),
      (modalRun evs).selected = some e → e.denied = false) ∧
    (∀ (s : ModalState) (row : FolderEntry), row.denied = true →
      modalStep s (.click row) = s ∧ modalStep s (.dblclick row) = s) :=
  ⟨fun evs e he => modalRun_selectionOk evs e he,
   fun s row hd => modalStep_denied_frozen s row hd⟩

theorem claim_c9_witness :
    ((⟨("docs").toList, ("D:\\docs").toList, false⟩ : FolderEntry).denied = false) ∧
    (modalStep modalInit (.click ⟨("sys").toList, ("C:\\Windows").toList, true⟩) = modalInit ∧
      modalStep modalInit (.dblclick ⟨("sys").toList, ("C:\\Windows").toList, true⟩) = modalInit) :=
  ⟨claim_c9_selection_never_denied.1
      [.click ⟨("docs").toList, ("D:\\docs").toList, false⟩] _ (by decide),
   claim_c9_selection_never_denied.2 modalInit _ (by decide)⟩

/-- Claim C10: `getFilenameFromDisposition` returns null exactly when
the header is empty or no filename parameter matches the pattern, and
every non-null result is the first capture - which contains no double
quote or semicolon, so quote removal is the identity on it - trimmed and
URI-decoded. -/
theorem claim_c10_disposition (d : List Char) :
    (getFilenameFromDisposition d = none ↔ (d = [] ∨ firstMatch d = none)) ∧
    (∀ r, getFilenameFromDisposition d = some r →
      ∃ cap, firstMatch d = some cap ∧ cap.all capOk = true ∧
        cap.filter (fun c => !(c = '"')) = cap ∧
        r = jsDecodeURI (jsTrim cap)) := by
  constructor
  · unfold getFilenameFromDisposition
    by_cases hd : d.isEmpty = true
    · rw [if_pos hd]
      simp [List.isEmpty_iff.mp hd]
    · rw [if_neg hd]
      have hdne : d ≠ [] := fun he => hd (by rw [he]; rfl)
      cases hm : firstMatch d with
      | none => simp [hdne]
      | some cap => simp [hdne]
  · intro r hr
    unfold getFilenameFromDisposition at hr
    split_ifs at hr
    cases hm : firstMatch d with
    | none => rw [hm] at hr; simp at hr
    | some cap =>
      rw [hm] at hr
      have hall : cap.all capOk = true := firstMatch_all hm
      have hfil : cap.filter (fun c => !(c = '"')) = cap := by
        apply List.filter_eq_self.mpr
        intro a ha
        have h2 := List.all_eq_true.mp hall a ha
        unfold capOk at h2
        simp at h2 ⊢
        exact h2.1
      refine ⟨cap, rfl, hall, hfil, ?_⟩
      have hr2 : some (jsDecodeURI (jsTrim (cap.filter (fun c => !(c = '"'))))) = some r := hr
      rw [hfil] at hr2
      injection hr2 with h3
      exact h3.symm

theorem claim_c10_witness :
    ∃ cap, firstMatch (("attachment; filename=report.csv").toList) = some cap ∧
      cap.all capOk = true ∧
      cap.filter (fun c => !(c = '"')) = cap ∧
      ("report.csv").toList = jsDecodeURI (jsTrim cap) :=
  (claim_c10_disposition _).2 (("report.csv").toList) (by decide)

end SpoolGen
